import Mathlib

/-!
# Verification of the Tic-Tac-Toe core (`src/components/TicTacToe.tsx`)

This file gives a shallow embedding, in Lean 4, of the game core of the
repository: the board model, the outcome evaluator (`calculateWinner`),
the two opponent strategies (`getRandomMove`, `getBestMove` with its
recursive `minimax`), and the session state machine of the `TicTacToe`
component (history, view index, turn flag, mode, difficulty, names,
scores, and the two `useEffect` blocks).  Theorems about the claims of
the specification follow the definitions.

Conventions of the embedding:
* a cell of the board (`string | null` in the source, with only `"X"`
  and `"O"` ever stored) is `Option Mark`;
* a grid (`(string | null)[]`, always of length 9 in the component) is a
  `List Cell`;
* `minimax` mutates `board[i]` and restores it before any further read,
  so it is embedded as recursion on the functionally updated board; its
  recursion is made structural with a `fuel` argument that strictly
  bounds the recursion depth (each recursive call fills one empty cell,
  so depth never exceeds the number of empty cells, and every caller in
  the source passes a 9-cell board, for which `fuel = 9` is always
  enough); the `-Infinity` / `Infinity` initial scores are embedded as
  `-2` / `2`, which compare identically against the actual subtree
  scores, all of which lie in `[-1, 1]`;
* `Math.random()`-based choices are embedded as a function of an extra
  argument `r` ranging over the positions of the candidate list, i.e. a
  statement about every value the random choice can produce.
-/

set_option maxRecDepth 4000

inductive Mark : Type
  | X : Mark
  | O : Mark
  deriving DecidableEq, Repr

abbrev Cell := Option Mark

/-- The constant `emptyBoard = Array(9).fill(null)` (source line 6). -/
def emptyBoard : List Cell :=
  [none, none, none, none, none, none, none, none, none]

/-- The 8 fixed winning triples, in the order of the `lines` array of
`calculateWinner` (source lines 14–23): rows top to bottom, columns left
to right, the two diagonals. -/
def lines : List (List Nat) :=
  [[0, 1, 2], [3, 4, 5], [6, 7, 8],
   [0, 3, 6], [1, 4, 7], [2, 5, 8],
   [0, 4, 8], [2, 4, 6]]

/-- The body of the loop of `calculateWinner` (source lines 24–33): for a
triple `[a, b, c]`, report `(squares[a], [a, b, c])` when
`squares[a] && squares[a] === squares[b] && squares[a] === squares[c]`.
Out-of-range reads (`undefined` in the source, falsy like `null`) are
embedded as the default `none` of `List.getD`. -/
def lineCheck (squares : List Cell) (l : List Nat) : Option (Mark × List Nat) :=
  match l with
  | [a, b, c] =>
    match squares.getD a none with
    | some m =>
      if squares.getD b none = some m ∧ squares.getD c none = some m then
        some (m, l)
      else
        none
    | none => none
  | _ => none

/-- `calculateWinner` (source lines 13–35): the first triple of `lines`
whose three cells are equal and non-empty, with its mark; `null` if there
is none. -/
def calculateWinner (squares : List Cell) : Option (Mark × List Nat) :=
  lines.findSome? (lineCheck squares)

/-- `squares.every(Boolean)`: every cell occupied (source lines 49, 88,
149). -/
def boardFull (board : List Cell) : Bool :=
  board.all Option.isSome

/-- The outcome of a grid as the component derives it: `calculateWinner`
first (source line 80), and when there is no winner, `Draw` exactly when
`squares.every(Boolean)` (source lines 88–89 and 149–150). -/
inductive Outcome : Type
  | noRes : Outcome
  | win : Mark → List Nat → Outcome
  | draw : Outcome
  deriving DecidableEq, Repr

/-- The outcome evaluator of the component: `Win` from `calculateWinner`,
else `Draw` on a full board, else no result. -/
def evaluate (squares : List Cell) : Outcome :=
  match calculateWinner squares with
  | some (m, l) => Outcome.win m l
  | none => if boardFull squares then Outcome.draw else Outcome.noRes

/-- Modelled from the spec: the fixed order of the 8 triples, "rows
top-to-bottom, then columns left-to-right, then the two diagonals". -/
def specLines : List (List Nat) :=
  [[0, 1, 2], [3, 4, 5], [6, 7, 8],
   [0, 3, 6], [1, 4, 7], [2, 5, 8],
   [0, 4, 8], [2, 4, 6]]

/-- Modelled from the spec: the winner of one triple — the common mark
when all three cells are equal and non-empty. -/
def specLineWinner (squares : List Cell) (t : List Nat) : Option Mark :=
  match t.map (fun j => squares.getD j none) with
  | [some a, some b, some c] => if a = b ∧ b = c then some a else none
  | _ => none

/-- Modelled from the spec (§4.2): return `Win(mark, triple)` for the
first triple of `specLines` whose three cells are equal and non-empty;
if no triple wins and all 9 cells are occupied, return `Draw`; otherwise
no result. -/
def evaluateSpec (squares : List Cell) : Outcome :=
  match specLines.findSome? (fun t => (specLineWinner squares t).map (fun m => (m, t))) with
  | some (m, t) => Outcome.win m t
  | none =>
    if squares.countP (fun c => c.isSome) = 9 then Outcome.draw else Outcome.noRes

/-- The list of indices of empty cells, as computed by `getRandomMove`
(source line 39) and, with the same expression, by the bot-move effect
(source line 135): `squares.map((v, i) => v === null ? i : null)
.filter(v => v !== null)`. -/
def emptyIndices (squares : List Cell) : List Nat :=
  squares.enum.filterMap (fun p => if p.2 = none then some p.1 else none)

/-- `getRandomMove` (source lines 38–41): `empty[Math.floor(Math.random()
* empty.length)]`.  The random draw is embedded as the argument `r`; the
source's draw is always `< empty.length`, and `getD _ 0` is a default
never reached under that bound. -/
def getRandomMove (squares : List Cell) (r : Nat) : Nat :=
  (emptyIndices squares).getD r 0

/-- The index list `i = 0, …, 8` of the `for` loop inside `minimax`
(source line 51). -/
def idxList : List Nat := [0, 1, 2, 3, 4, 5, 6, 7, 8]

/-- One iteration of the `for` loop of `minimax` (source lines 51–62):
skip occupied cells; otherwise score the updated board and keep the new
score when it strictly beats the best so far (`>` when maximizing, `<`
when minimizing). -/
def selStep (emp : Nat → Bool) (child : Nat → Int) (isMax : Bool)
    (best : Int × Option Nat) (i : Nat) : Int × Option Nat :=
  if emp i then
    let s := child i
    if isMax then
      if s > best.1 then (s, some i) else best
    else
      if s < best.1 then (s, some i) else best
  else best

/-- The recursive `minimax` of `getBestMove` (source lines 45–64),
returning `(score, move)`: `+1` when `calculateWinner` names `botMark`,
`-1` when it names `humanMark`, `0` on a full board, else the best over
all empty cells of the score of the board with that cell filled by the
mover's mark, the roles alternating.  `fuel` makes the recursion
structural (see the header comment); the source's `-Infinity` /
`Infinity` seeds are `-2` / `2` here. -/
def minimax (bot hum : Mark) : Nat → List Cell → Bool → Int × Option Nat
  | fuel, board, isMax =>
    let result := calculateWinner board
    if (result.map Prod.fst) = some bot then (1, none)
    else if (result.map Prod.fst) = some hum then (-1, none)
    else if boardFull board then (0, none)
    else
      match fuel with
      | 0 => ((if isMax then -2 else 2), none)
      | f + 1 =>
        idxList.foldl
          (selStep (fun i => board.getD i none == none)
            (fun i =>
              (minimax bot hum f (board.set i (some (if isMax then bot else hum)))
                (!isMax)).1)
            isMax)
          ((if isMax then -2 else 2), none)

/-- `getBestMove` (source lines 43–66): `minimax([...squares], true).move
?? getRandomMove(squares)`; `r` is the random draw of the fallback. -/
def getBestMove (squares : List Cell) (bot hum : Mark) (r : Nat) : Nat :=
  match (minimax bot hum 9 squares true).2 with
  | some m => m
  | none => getRandomMove squares r

/-- The two game modes (source line 9). -/
inductive Mode : Type
  | human : Mode
  | bot : Mode
  deriving DecidableEq, Repr

/-- The two difficulty values (source line 10). -/
inductive Difficulty : Type
  | easy : Difficulty
  | hard : Difficulty
  deriving DecidableEq, Repr

/-- The score tally (source line 77). -/
structure Scores : Type where
  X : Nat
  O : Nat
  Draw : Nat
  deriving DecidableEq, Repr

/-- The React state of the `TicTacToe` component (source lines 70–77):
history of grids, viewed index `step`, turn flag `xIsNext`, mode,
difficulty, display names, score tally.  (`editingNames` is a pure UI
toggle with no effect on the fields below and is omitted.) -/
structure Session : Type where
  history : List (List Cell)
  step : Nat
  xIsNext : Bool
  mode : Mode
  difficulty : Difficulty
  names : String × String
  scores : Scores
  deriving DecidableEq, Repr

/-- `squares = history[step]` (source line 79). -/
def currentSquares (s : Session) : List Cell :=
  s.history.getD s.step []

/-- The initial component state (source lines 70–77). -/
def initSession : Session :=
  { history := [emptyBoard], step := 0, xIsNext := true,
    mode := Mode.human, difficulty := Difficulty.easy,
    names := ("Player X", "Player O"),
    scores := { X := 0, O := 0, Draw := 0 } }

/-- `handleClick` (source lines 93–101): ignore the click when the cell
is occupied or the viewed grid has a winner; otherwise place the mark of
the side to move, append to the history truncated at the viewed index,
view the new last grid, and flip the turn. -/
def handleClick (s : Session) (i : Nat) : Session :=
  let squares := currentSquares s
  if (squares.getD i none).isSome || (calculateWinner squares).isSome then s
  else
    let nextSquares := squares.set i (some (if s.xIsNext then Mark.X else Mark.O))
    let nextHistory := s.history.take (s.step + 1) ++ [nextSquares]
    { s with history := nextHistory, step := nextHistory.length - 1,
             xIsNext := !s.xIsNext }

/-- `handleReset` (source lines 103–107). -/
def handleReset (s : Session) : Session :=
  { s with history := [emptyBoard], step := 0, xIsNext := true }

/-- `handleModeChange` (source lines 109–114). -/
def handleModeChange (s : Session) (newMode : Mode) : Session :=
  { s with mode := newMode, history := [emptyBoard], step := 0, xIsNext := true }

/-- `handleDifficultyChange` (source lines 116–119): set the difficulty,
then `handleReset`. -/
def handleDifficultyChange (s : Session) (newDiff : Difficulty) : Session :=
  handleReset { s with difficulty := newDiff }

/-- `jumpTo` (source lines 121–124): view index `move`, turn from its
parity. -/
def jumpTo (s : Session) (move : Nat) : Session :=
  { s with step := move, xIsNext := (move % 2 == 0) }

/-- `handleNameChange` (source lines 126–128). -/
def handleNameChange (s : Session) (mark : Mark) (value : String) : Session :=
  match mark with
  | Mark.X => { s with names := (value, s.names.2) }
  | Mark.O => { s with names := (s.names.1, value) }

/-- `isBotTurn` (source line 85): `mode === "bot" && isLatestStep &&
!winner && squares.some(s => s === null) && !xIsNext`. -/
def isBotTurn (s : Session) : Bool :=
  s.mode == Mode.bot
    && s.step == s.history.length - 1
    && !(calculateWinner (currentSquares s)).isSome
    && (currentSquares s).any (fun c => c == none)
    && !s.xIsNext

/-- The moves the bot-move effect (source lines 131–143) can submit: when
`isBotTurn`, a uniformly random element of the empty-cell index list it
computes inline (source line 135, the same expression as in
`getRandomMove`); otherwise nothing. -/
def botEffectMoves (s : Session) : List Nat :=
  if isBotTurn s then emptyIndices (currentSquares s) else []

/-- The body of the score-tracking effect (source lines 146–153): when
the viewed grid has a winner, bump that mark's tally; otherwise, when it
is full, bump the draw tally. -/
def scoreEffectBody (s : Session) : Session :=
  match (calculateWinner (currentSquares s)).map Prod.fst with
  | some Mark.X => { s with scores := { s.scores with X := s.scores.X + 1 } }
  | some Mark.O => { s with scores := { s.scores with O := s.scores.O + 1 } }
  | none =>
    if boardFull (currentSquares s) then
      { s with scores := { s.scores with Draw := s.scores.Draw + 1 } }
    else s

/-- The dependency array `[winner, step]` of the score-tracking effect
(source line 153). -/
def scoreDeps (s : Session) : Option Mark × Nat :=
  ((calculateWinner (currentSquares s)).map Prod.fst, s.step)

/-- The component state together with the dependency values the
score-tracking effect last ran with: React re-runs the effect after a
render exactly when the dependency array changed. -/
structure AppState : Type where
  sess : Session
  prevDeps : Option Mark × Nat
  deriving DecidableEq, Repr

/-- The state after mounting: the effect runs once on mount (on the empty
board it changes nothing). -/
def initApp : AppState :=
  { sess := scoreEffectBody initSession, prevDeps := scoreDeps initSession }

/-- The external events of the session: a cell selection (either from a
player click or submitted by the bot-move effect), a history jump, a
reset, a mode change, a difficulty change, a rename. -/
inductive Event : Type
  | select : Nat → Event
  | jump : Nat → Event
  | reset : Event
  | setMode : Mode → Event
  | setDifficulty : Difficulty → Event
  | rename : Mark → String → Event

/-- The handler invoked by an event. -/
def handleEvent (s : Session) : Event → Session
  | Event.select i => handleClick s i
  | Event.jump k => jumpTo s k
  | Event.reset => handleReset s
  | Event.setMode m => handleModeChange s m
  | Event.setDifficulty d => handleDifficultyChange s d
  | Event.rename m v => handleNameChange s m v

/-- One event of the session loop: run the handler, re-render, and run
the score-tracking effect when its dependency array `[winner, step]`
changed since it last ran. -/
def stepApp (a : AppState) (e : Event) : AppState :=
  let s := handleEvent a.sess e
  if scoreDeps s = a.prevDeps then { a with sess := s }
  else { sess := scoreEffectBody s, prevDeps := scoreDeps s }

/-- A whole event sequence from a state. -/
def runEvents (a : AppState) (es : List Event) : AppState :=
  es.foldl stepApp a

/-- `true` on grids on which the game is over: a winner, or a full board
(the component stops play via the `winner` guard of `handleClick` and,
for full boards, via every cell being occupied). -/
def terminalGrid (g : List Cell) : Bool :=
  (calculateWinner g).isSome || boardFull g

/-- Number of cells holding mark `m`. -/
def countM (m : Mark) (g : List Cell) : Nat :=
  g.countP (fun c => c == some m)

/-- Number of empty cells. -/
def countNone (g : List Cell) : Nat :=
  g.countP (fun c => c == none)

/-! ## Basic helper lemmas -/

theorem mem_idxList {i : Nat} : i ∈ idxList ↔ i < 9 := by
  simp only [idxList, List.mem_cons, List.not_mem_nil, or_false]
  omega

theorem getD_set_self (g : List Cell) (i : Nat) (v : Cell) (h : i < g.length) :
    (g.set i v).getD i none = v := by
  rw [List.getD_eq_getElem?_getD, List.getElem?_set]
  simp [h]

theorem getD_set_ne (g : List Cell) {i j : Nat} (v : Cell) (h : i ≠ j) :
    (g.set i v).getD j none = g.getD j none := by
  rw [List.getD_eq_getElem?_getD, List.getElem?_set, if_neg h,
    ← List.getD_eq_getElem?_getD]

theorem getElem_of_getD_none (g : List Cell) {i : Nat} (h : i < g.length)
    (he : g.getD i none = none) : g[i] = (none : Cell) := by
  rw [← List.getD_eq_getElem g none h]
  exact he

theorem countNone_set (g : List Cell) {i : Nat} (m : Mark) (hlt : i < g.length)
    (he : g.getD i none = none) :
    countNone (g.set i (some m)) + 1 = countNone g := by
  have hg : g[i] = (none : Cell) := getElem_of_getD_none g hlt he
  have hpos : 0 < countNone g := by
    refine List.countP_pos_iff.mpr ⟨none, ?_, by simp⟩
    rw [← hg]
    exact g.getElem_mem hlt
  unfold countNone at *
  rw [List.countP_set _ _ _ _ hlt, hg]
  simp only [beq_iff_eq, reduceCtorEq, if_true, if_false]
  omega

theorem countM_set_eq (g : List Cell) {i : Nat} (m : Mark) (hlt : i < g.length)
    (he : g.getD i none = none) :
    countM m (g.set i (some m)) = countM m g + 1 := by
  have hg : g[i] = (none : Cell) := getElem_of_getD_none g hlt he
  unfold countM
  rw [List.countP_set _ _ _ _ hlt, hg]
  simp

theorem countM_set_ne (g : List Cell) {i : Nat} {m m' : Mark} (hne : m ≠ m')
    (hlt : i < g.length) (he : g.getD i none = none) :
    countM m' (g.set i (some m)) = countM m' g := by
  have hg : g[i] = (none : Cell) := getElem_of_getD_none g hlt he
  unfold countM
  rw [List.countP_set _ _ _ _ hlt, hg]
  simp [hne]

theorem countNone_le_length (g : List Cell) : countNone g ≤ g.length :=
  List.countP_le_length _

theorem exists_empty_of_not_full (g : List Cell) (h9 : g.length = 9)
    (hf : boardFull g = false) : ∃ i, i < 9 ∧ g.getD i none = none := by
  unfold boardFull at hf
  have : ∃ x ∈ g, ¬ x.isSome := by
    by_contra hall
    push_neg at hall
    have : g.all Option.isSome = true := List.all_eq_true.mpr fun x hx => by
      simpa using hall x hx
    rw [this] at hf
    simp at hf
  obtain ⟨x, hx, hxs⟩ := this
  have hxn : x = (none : Cell) := Option.not_isSome_iff_eq_none.mp hxs
  obtain ⟨n, hn, hgn⟩ := List.mem_iff_getElem.mp hx
  exact ⟨n, h9 ▸ hn, by rw [List.getD_eq_getElem g none hn, hgn, hxn]⟩

theorem terminalGrid_false (g : List Cell) (h : terminalGrid g = false) :
    calculateWinner g = none ∧ boardFull g = false := by
  unfold terminalGrid at h
  simp only [Bool.or_eq_false_iff] at h
  refine ⟨?_, h.2⟩
  have := h.1
  simpa [Option.isNone_iff_eq_none] using Option.not_isSome_iff_eq_none.mp (by simp [this])

/-! ## Lemmas about `calculateWinner` and winning lines -/

/-- `true` exactly when some triple of `lines` is completely held by `m`.
Verification auxiliary (not itself part of the source): the existence of
a winning line for `m`. -/
def hasLineFor (m : Mark) (g : List Cell) : Bool :=
  lines.any fun l => l.all fun j => g.getD j none == some m

theorem hasLineFor_iff (m : Mark) (g : List Cell) :
    hasLineFor m g = true ↔ ∃ l ∈ lines, ∀ j ∈ l, g.getD j none = some m := by
  unfold hasLineFor
  simp [List.any_eq_true, List.all_eq_true]

theorem lineCheck_eq_some (g : List Cell) {l t : List Nat} {m : Mark}
    (h : lineCheck g l = some (m, t)) :
    t = l ∧ ∀ j ∈ l, g.getD j none = some m := by
  match l with
  | [] => simp [lineCheck] at h
  | [a] => simp [lineCheck] at h
  | [a, b] => simp [lineCheck] at h
  | (a :: b :: c :: d :: r) => simp [lineCheck] at h
  | [a, b, c] =>
    simp only [lineCheck] at h
    split at h
    case h_1 ma hga =>
      split at h
      case isTrue hbc =>
        simp only [Option.some.injEq, Prod.mk.injEq] at h
        obtain ⟨rfl, rfl⟩ := h
        refine ⟨rfl, ?_⟩
        intro j hj
        simp only [List.mem_cons, List.not_mem_nil, or_false] at hj
        rcases hj with rfl | rfl | rfl
        · exact hga
        · exact hbc.1
        · exact hbc.2
      case isFalse hbc => simp at h
    case h_2 hga => simp at h

theorem calculateWinner_some {g : List Cell} {m : Mark} {l : List Nat}
    (h : calculateWinner g = some (m, l)) :
    l ∈ lines ∧ ∀ j ∈ l, g.getD j none = some m := by
  obtain ⟨a, ha, heq⟩ := List.exists_of_findSome?_eq_some h
  obtain ⟨rfl, hall⟩ := lineCheck_eq_some g heq
  exact ⟨ha, hall⟩

theorem lineCheck_of_all (g : List Cell) (a b c : Nat) (m : Mark)
    (h1 : g.getD a none = some m) (h2 : g.getD b none = some m)
    (h3 : g.getD c none = some m) :
    lineCheck g [a, b, c] = some (m, [a, b, c]) := by
  simp only [lineCheck]
  rw [h1]
  exact if_pos ⟨h2, h3⟩

theorem calculateWinner_ne_none {g : List Cell} {m : Mark} {l : List Nat}
    (hl : l ∈ lines) (hall : ∀ j ∈ l, g.getD j none = some m) :
    calculateWinner g ≠ none := by
  intro hnone
  have hc : lineCheck g l = none :=
    List.findSome?_eq_none_iff.mp hnone l hl
  have hshape : l = [0,1,2] ∨ l = [3,4,5] ∨ l = [6,7,8] ∨ l = [0,3,6] ∨
      l = [1,4,7] ∨ l = [2,5,8] ∨ l = [0,4,8] ∨ l = [2,4,6] := by
    simpa [lines] using hl
  rcases hshape with rfl | rfl | rfl | rfl | rfl | rfl | rfl | rfl <;>
    · rw [List.forall_mem_cons, List.forall_mem_cons, List.forall_mem_singleton] at hall
      obtain ⟨h1, h2, h3⟩ := hall
      rw [lineCheck_of_all g _ _ _ m h1 h2 h3] at hc
      simp at hc

theorem hasLineFor_of_winner {g : List Cell} {m : Mark} {l : List Nat}
    (h : calculateWinner g = some (m, l)) : hasLineFor m g = true := by
  obtain ⟨hl, hall⟩ := calculateWinner_some h
  exact (hasLineFor_iff m g).mpr ⟨l, hl, hall⟩

theorem winner_map_ne_x {g : List Cell} (hx : hasLineFor Mark.X g = false) :
    (calculateWinner g).map Prod.fst ≠ some Mark.X := by
  intro h
  cases hc : calculateWinner g with
  | none => rw [hc] at h; simp at h
  | some p =>
    obtain ⟨m, l⟩ := p
    rw [hc] at h
    have hm : m = Mark.X := by simpa using h
    subst hm
    rw [hasLineFor_of_winner hc] at hx
    simp at hx

theorem hasLineFor_false_of_cw_none {g : List Cell} (m : Mark)
    (h : calculateWinner g = none) : hasLineFor m g = false := by
  by_contra hb
  have := (hasLineFor_iff m g).mp (by
    cases hv : hasLineFor m g
    · exact absurd hv hb
    · rfl)
  obtain ⟨l, hl, hall⟩ := this
  exact calculateWinner_ne_none hl hall h

theorem hasLineFor_x_of_set_o {g : List Cell} {i : Nat} (hi : i < g.length)
    (h : hasLineFor Mark.X (g.set i (some Mark.O)) = true) :
    hasLineFor Mark.X g = true := by
  obtain ⟨l, hl, hall⟩ := (hasLineFor_iff _ _).mp h
  refine (hasLineFor_iff _ _).mpr ⟨l, hl, fun j hj => ?_⟩
  rcases eq_or_ne i j with rfl | hne
  · have := hall i hj
    rw [getD_set_self g i _ hi] at this
    simp at this
  · have := hall j hj
    rwa [getD_set_ne g _ hne] at this

theorem cw_set_x_map {g : List Cell} {i : Nat} (hi : i < g.length)
    (hcw : calculateWinner g = none)
    (hx : hasLineFor Mark.X (g.set i (some Mark.X)) = true) :
    (calculateWinner (g.set i (some Mark.X))).map Prod.fst = some Mark.X := by
  obtain ⟨l0, hl0, hall0⟩ := (hasLineFor_iff _ _).mp hx
  cases hc : calculateWinner (g.set i (some Mark.X)) with
  | none => exact absurd hc (calculateWinner_ne_none hl0 hall0)
  | some p =>
    obtain ⟨m, l⟩ := p
    obtain ⟨hl, hall⟩ := calculateWinner_some hc
    cases m with
    | X => simp
    | O =>
      exfalso
      have hallg : ∀ j ∈ l, g.getD j none = some Mark.O := by
        intro j hj
        rcases eq_or_ne i j with rfl | hne
        · have := hall i hj
          rw [getD_set_self g i _ hi] at this
          simp at this
        · have := hall j hj
          rwa [getD_set_ne g _ hne] at this
      exact calculateWinner_ne_none hl hallg hcw

/-! ## Characterization of the `minimax` selection fold -/

theorem selStep_result (emp : Nat → Bool) (child : Nat → Int) (isMax : Bool)
    (b : Int × Option Nat) (i : Nat) :
    selStep emp child isMax b i = b ∨
      (emp i = true ∧ selStep emp child isMax b i = (child i, some i)) := by
  unfold selStep
  cases isMax <;> dsimp only <;> split_ifs with h1 h2 <;> simp_all

theorem foldl_selStep_result (emp : Nat → Bool) (child : Nat → Int)
    (isMax : Bool) :
    ∀ (L : List Nat) (b : Int × Option Nat),
      L.foldl (selStep emp child isMax) b = b ∨
        ∃ i ∈ L, emp i = true ∧
          L.foldl (selStep emp child isMax) b = (child i, some i) := by
  intro L
  induction L with
  | nil => intro b; exact Or.inl rfl
  | cons a L ih =>
    intro b
    rw [List.foldl_cons]
    rcases selStep_result emp child isMax b a with hs | ⟨he, hs⟩ <;> rw [hs]
    · rcases ih b with h | ⟨i, hi, hie, hv⟩
      · exact Or.inl h
      · exact Or.inr ⟨i, List.mem_cons_of_mem a hi, hie, hv⟩
    · rcases ih (child a, some a) with h | ⟨i, hi, hie, hv⟩
      · exact Or.inr ⟨a, List.mem_cons_self a L, he, h⟩
      · exact Or.inr ⟨i, List.mem_cons_of_mem a hi, hie, hv⟩

theorem selStep_min_le (emp : Nat → Bool) (child : Nat → Int)
    (b : Int × Option Nat) (i : Nat) :
    (selStep emp child false b i).1 ≤ b.1 := by
  unfold selStep
  dsimp only
  split_ifs with h1 h2 <;> simp_all <;> omega

theorem selStep_min_le_child (emp : Nat → Bool) (child : Nat → Int)
    (b : Int × Option Nat) (i : Nat) (he : emp i = true) :
    (selStep emp child false b i).1 ≤ child i := by
  unfold selStep
  dsimp only
  split_ifs with h1 h2 <;> simp_all <;> omega

theorem foldl_selStep_min (emp : Nat → Bool) (child : Nat → Int) :
    ∀ (L : List Nat) (b : Int × Option Nat),
      (L.foldl (selStep emp child false) b).1 ≤ b.1 ∧
        ∀ j ∈ L, emp j = true →
          (L.foldl (selStep emp child false) b).1 ≤ child j := by
  intro L
  induction L with
  | nil => intro b; exact ⟨le_refl _, by simp⟩
  | cons a L ih =>
    intro b
    rw [List.foldl_cons]
    obtain ⟨ihle, ihall⟩ := ih (selStep emp child false b a)
    refine ⟨le_trans ihle (selStep_min_le emp child b a), ?_⟩
    intro j hj hje
    rcases List.mem_cons.mp hj with rfl | hjL
    · exact le_trans ihle (selStep_min_le_child emp child b j hje)
    · exact ihall j hjL hje

theorem selStep_max_ge (emp : Nat → Bool) (child : Nat → Int)
    (b : Int × Option Nat) (i : Nat) :
    b.1 ≤ (selStep emp child true b i).1 := by
  unfold selStep
  dsimp only
  split_ifs with h1 h2 <;> simp_all <;> omega

theorem selStep_max_ge_child (emp : Nat → Bool) (child : Nat → Int)
    (b : Int × Option Nat) (i : Nat) (he : emp i = true) :
    child i ≤ (selStep emp child true b i).1 := by
  unfold selStep
  dsimp only
  split_ifs with h1 h2 <;> simp_all <;> omega

theorem foldl_selStep_max (emp : Nat → Bool) (child : Nat → Int) :
    ∀ (L : List Nat) (b : Int × Option Nat),
      b.1 ≤ (L.foldl (selStep emp child true) b).1 ∧
        ∀ j ∈ L, emp j = true →
          child j ≤ (L.foldl (selStep emp child true) b).1 := by
  intro L
  induction L with
  | nil => intro b; exact ⟨le_refl _, by simp⟩
  | cons a L ih =>
    intro b
    rw [List.foldl_cons]
    obtain ⟨ihge, ihall⟩ := ih (selStep emp child true b a)
    refine ⟨le_trans (selStep_max_ge emp child b a) ihge, ?_⟩
    intro j hj hje
    rcases List.mem_cons.mp hj with rfl | hjL
    · exact le_trans (selStep_max_ge_child emp child b j hje) ihge
    · exact ihall j hjL hje

/-! ## Branch lemmas and score facts for `minimax` -/

theorem minimax_botwin (bot hum : Mark) (fuel : Nat) (g : List Cell) (b : Bool)
    (h : (calculateWinner g).map Prod.fst = some bot) :
    minimax bot hum fuel g b = (1, none) := by
  rw [minimax.eq_def]
  simp only [h, if_pos]

theorem minimax_humwin (bot hum : Mark) (fuel : Nat) (g : List Cell) (b : Bool)
    (hne : (calculateWinner g).map Prod.fst ≠ some bot)
    (h : (calculateWinner g).map Prod.fst = some hum) :
    minimax bot hum fuel g b = (-1, none) := by
  have hne2 : some hum ≠ some bot := by rw [h] at hne; exact hne
  rw [minimax.eq_def]
  simp [h, hne2]

theorem minimax_full (bot hum : Mark) (fuel : Nat) (g : List Cell) (b : Bool)
    (hcw : calculateWinner g = none) (hf : boardFull g = true) :
    minimax bot hum fuel g b = (0, none) := by
  rw [minimax.eq_def]
  simp [hcw, hf]

theorem minimax_rec (bot hum : Mark) (f : Nat) (g : List Cell) (b : Bool)
    (hcw : calculateWinner g = none) (hnf : boardFull g = false) :
    minimax bot hum (f + 1) g b =
      idxList.foldl
        (selStep (fun i => g.getD i none == none)
          (fun i =>
            (minimax bot hum f (g.set i (some (if b then bot else hum))) (!b)).1)
          b)
        ((if b then -2 else 2), none) := by
  rw [minimax.eq_def]
  simp [hcw, hnf]

theorem minimax_fuel_zero (bot hum : Mark) (g : List Cell) (b : Bool)
    (hcw : calculateWinner g = none) (hnf : boardFull g = false) :
    minimax bot hum 0 g b = ((if b then -2 else 2), none) := by
  rw [minimax.eq_def]
  simp [hcw, hnf]

theorem minimax_bounds :
    ∀ (f : Nat) (g : List Cell) (b : Bool), g.length = 9 → countNone g ≤ f →
      -1 ≤ (minimax Mark.O Mark.X f g b).1 ∧ (minimax Mark.O Mark.X f g b).1 ≤ 1 := by
  intro f
  induction f with
  | zero =>
    intro g b h9 hcn
    have hfull : boardFull g = true := by
      by_contra hnf
      obtain ⟨i, hi9, hie⟩ := exists_empty_of_not_full g h9
        (Bool.eq_false_iff.mpr hnf)
      have : 0 < countNone g := List.countP_pos_iff.mpr
        ⟨none, by
          rw [← getElem_of_getD_none g (h9 ▸ hi9) hie]
          exact g.getElem_mem (h9 ▸ hi9), by simp⟩
      omega
    cases hcw : calculateWinner g with
    | none =>
      rw [minimax_full _ _ _ _ _ hcw hfull]
      constructor <;> norm_num
    | some p =>
      obtain ⟨m, l⟩ := p
      cases m with
      | O =>
        rw [minimax_botwin _ _ _ _ _ (by rw [hcw]; rfl)]
        constructor <;> norm_num
      | X =>
        rw [minimax_humwin _ _ _ _ _ (by rw [hcw]; simp) (by rw [hcw]; rfl)]
        constructor <;> norm_num
  | succ f ih =>
    intro g b h9 hcn
    cases hcw : calculateWinner g with
    | some p =>
      obtain ⟨m, l⟩ := p
      cases m with
      | O =>
        rw [minimax_botwin _ _ _ _ _ (by rw [hcw]; rfl)]
        constructor <;> norm_num
      | X =>
        rw [minimax_humwin _ _ _ _ _ (by rw [hcw]; simp) (by rw [hcw]; rfl)]
        constructor <;> norm_num
    | none =>
      cases hfull : boardFull g with
      | true =>
        rw [minimax_full _ _ _ _ _ hcw hfull]
        constructor <;> norm_num
      | false =>
        obtain ⟨j, hj9, hje⟩ := exists_empty_of_not_full g h9 hfull
        have hjidx : j ∈ idxList := mem_idxList.mpr hj9
        have hjemp : (fun i => g.getD i none == none) j = true := by
          show (g.getD j none == none) = true
          rw [hje]
          rfl
        cases b
        · rw [minimax_rec _ _ _ _ _ hcw hfull]
          simp only [Bool.false_eq_true, if_false, Bool.not_false]
          rcases foldl_selStep_result (fun i => g.getD i none == none)
              (fun i => (minimax Mark.O Mark.X f (g.set i (some Mark.X)) true).1)
              false idxList ((2 : Int), none)
            with hr | ⟨i, hiidx, hie, hr⟩
          · exfalso
            have h2 := (foldl_selStep_min (fun i => g.getD i none == none)
              (fun i => (minimax Mark.O Mark.X f (g.set i (some Mark.X)) true).1)
              idxList ((2 : Int), none)).2 j hjidx hjemp
            rw [hr] at h2
            have h3 := (ih (g.set j (some Mark.X)) true
              (by rw [List.length_set]; exact h9)
              (by have := countNone_set g Mark.X (by omega : j < g.length) hje
                  omega)).2
            dsimp only at h2
            omega
          · rw [hr]
            have hie' : g.getD i none = none := by simpa using hie
            have hi9 : i < 9 := mem_idxList.mp hiidx
            have h3 := ih (g.set i (some Mark.X)) true
              (by rw [List.length_set]; exact h9)
              (by have := countNone_set g Mark.X (by omega : i < g.length) hie'
                  omega)
            exact ⟨h3.1, h3.2⟩
        · rw [minimax_rec _ _ _ _ _ hcw hfull]
          simp only [eq_self_iff_true, if_true, Bool.not_true]
          rcases foldl_selStep_result (fun i => g.getD i none == none)
              (fun i => (minimax Mark.O Mark.X f (g.set i (some Mark.O)) false).1)
              true idxList ((-2 : Int), none)
            with hr | ⟨i, hiidx, hie, hr⟩
          · exfalso
            have h2 := (foldl_selStep_max (fun i => g.getD i none == none)
              (fun i => (minimax Mark.O Mark.X f (g.set i (some Mark.O)) false).1)
              idxList ((-2 : Int), none)).2 j hjidx hjemp
            rw [hr] at h2
            have h3 := (ih (g.set j (some Mark.O)) false
              (by rw [List.length_set]; exact h9)
              (by have := countNone_set g Mark.O (by omega : j < g.length) hje
                  omega)).1
            dsimp only at h2
            omega
          · rw [hr]
            have hie' : g.getD i none = none := by simpa using hie
            have hi9 : i < 9 := mem_idxList.mp hiidx
            have h3 := ih (g.set i (some Mark.O)) false
              (by rw [List.length_set]; exact h9)
              (by have := countNone_set g Mark.O (by omega : i < g.length) hie'
                  omega)
            exact ⟨h3.1, h3.2⟩

theorem countNone_pos_of_empty (g : List Cell) {j : Nat} (hlt : j < g.length)
    (hje : g.getD j none = none) : 0 < countNone g :=
  List.countP_pos_iff.mpr ⟨none, by
    rw [← getElem_of_getD_none g hlt hje]
    exact g.getElem_mem hlt, by simp⟩

theorem selStep_congr (emp : Nat → Bool) (child₁ child₂ : Nat → Int)
    (isMax : Bool) (b : Int × Option Nat) (i : Nat)
    (h : emp i = true → child₁ i = child₂ i) :
    selStep emp child₁ isMax b i = selStep emp child₂ isMax b i := by
  unfold selStep
  by_cases he : emp i = true
  · simp only [if_pos he, h he]
  · simp only [if_neg he]

theorem foldl_congr_mem {α β : Type} (f₁ f₂ : β → α → β) :
    ∀ (L : List α), (∀ b a, a ∈ L → f₁ b a = f₂ b a) →
      ∀ b, L.foldl f₁ b = L.foldl f₂ b := by
  intro L
  induction L with
  | nil => intro _ b; rfl
  | cons a L ih =>
    intro h b
    rw [List.foldl_cons, List.foldl_cons,
      h b a (List.mem_cons_self a L),
      ih (fun b' a' ha' => h b' a' (List.mem_cons_of_mem a ha')) (f₂ b a)]

theorem minimax_fuel_congr :
    ∀ (f₁ f₂ : Nat) (g : List Cell) (b : Bool), g.length = 9 →
      countNone g ≤ f₁ → countNone g ≤ f₂ →
      minimax Mark.O Mark.X f₁ g b = minimax Mark.O Mark.X f₂ g b := by
  intro f₁
  induction f₁ with
  | zero =>
    intro f₂ g b h9 hcn1 hcn2
    cases hcw : calculateWinner g with
    | some p =>
      obtain ⟨m, l⟩ := p
      cases m with
      | O =>
        rw [minimax_botwin _ _ _ _ _ (by rw [hcw]; rfl),
          minimax_botwin _ _ _ _ _ (by rw [hcw]; rfl)]
      | X =>
        rw [minimax_humwin _ _ _ _ _ (by rw [hcw]; simp) (by rw [hcw]; rfl),
          minimax_humwin _ _ _ _ _ (by rw [hcw]; simp) (by rw [hcw]; rfl)]
    | none =>
      cases hfull : boardFull g with
      | true =>
        rw [minimax_full _ _ _ _ _ hcw hfull, minimax_full _ _ _ _ _ hcw hfull]
      | false =>
        exfalso
        obtain ⟨j, hj9, hje⟩ := exists_empty_of_not_full g h9 hfull
        have := countNone_pos_of_empty g (by omega : j < g.length) hje
        omega
  | succ f ih =>
    intro f₂ g b h9 hcn1 hcn2
    cases hcw : calculateWinner g with
    | some p =>
      obtain ⟨m, l⟩ := p
      cases m with
      | O =>
        rw [minimax_botwin _ _ _ _ _ (by rw [hcw]; rfl),
          minimax_botwin _ _ _ _ _ (by rw [hcw]; rfl)]
      | X =>
        rw [minimax_humwin _ _ _ _ _ (by rw [hcw]; simp) (by rw [hcw]; rfl),
          minimax_humwin _ _ _ _ _ (by rw [hcw]; simp) (by rw [hcw]; rfl)]
    | none =>
      cases hfull : boardFull g with
      | true =>
        rw [minimax_full _ _ _ _ _ hcw hfull, minimax_full _ _ _ _ _ hcw hfull]
      | false =>
        obtain ⟨j, hj9, hje⟩ := exists_empty_of_not_full g h9 hfull
        have hpos := countNone_pos_of_empty g (by omega : j < g.length) hje
        cases f₂ with
        | zero => omega
        | succ f₂ =>
          rw [minimax_rec _ _ _ _ _ hcw hfull, minimax_rec _ _ _ _ _ hcw hfull]
          apply foldl_congr_mem
          intro bb i hi
          apply selStep_congr
          intro hie
          have hie' : g.getD i none = none := by simpa using hie
          have hi9 : i < 9 := mem_idxList.mp hi
          have hlen : (g.set i (some (if b then Mark.O else Mark.X))).length = 9 := by
            rw [List.length_set]; exact h9
          have hcns := countNone_set g (if b then Mark.O else Mark.X)
            (by omega : i < g.length) hie'
          rw [ih f₂ _ (!b) hlen (by omega) (by omega)]

/-- At a non-terminal maximizing node, `minimax` returns the move of an
empty in-range cell, and the node's score is exactly the score of the
board extended by that move (at one less fuel). -/
theorem minimax_max_move (f : Nat) (g : List Cell) (h9 : g.length = 9)
    (hcw : calculateWinner g = none) (hnf : boardFull g = false)
    (hcn : countNone g ≤ f + 1) :
    ∃ i, i < 9 ∧ g.getD i none = none ∧
      (minimax Mark.O Mark.X (f + 1) g true).2 = some i ∧
      (minimax Mark.O Mark.X (f + 1) g true).1 =
        (minimax Mark.O Mark.X f (g.set i (some Mark.O)) false).1 := by
  obtain ⟨j, hj9, hje⟩ := exists_empty_of_not_full g h9 hnf
  have hjidx : j ∈ idxList := mem_idxList.mpr hj9
  have hjemp : (fun i => g.getD i none == none) j = true := by
    show (g.getD j none == none) = true
    rw [hje]
    rfl
  rw [minimax_rec _ _ _ _ _ hcw hnf]
  simp only [eq_self_iff_true, if_true, Bool.not_true]
  rcases foldl_selStep_result (fun i => g.getD i none == none)
      (fun i => (minimax Mark.O Mark.X f (g.set i (some Mark.O)) false).1)
      true idxList ((-2 : Int), none)
    with hr | ⟨i, hiidx, hie, hr⟩
  · exfalso
    have h2 := (foldl_selStep_max (fun i => g.getD i none == none)
      (fun i => (minimax Mark.O Mark.X f (g.set i (some Mark.O)) false).1)
      idxList ((-2 : Int), none)).2 j hjidx hjemp
    rw [hr] at h2
    have h3 := (minimax_bounds f (g.set j (some Mark.O)) false
      (by rw [List.length_set]; exact h9)
      (by have := countNone_set g Mark.O (by omega : j < g.length) hje
          omega)).1
    dsimp only at h2
    omega
  · refine ⟨i, mem_idxList.mp hiidx, by simpa using hie, ?_, ?_⟩ <;> rw [hr]

/-- At a non-terminal minimizing node, the node's score is at most the
score of the board extended by any empty in-range cell (at one less
fuel). -/
theorem minimax_min_child_ge (f : Nat) (g : List Cell) (h9 : g.length = 9)
    (hcw : calculateWinner g = none) (hnf : boardFull g = false)
    (j : Nat) (hj9 : j < 9) (hje : g.getD j none = none) :
    (minimax Mark.O Mark.X (f + 1) g false).1 ≤
      (minimax Mark.O Mark.X f (g.set j (some Mark.X)) true).1 := by
  have hjidx : j ∈ idxList := mem_idxList.mpr hj9
  have hjemp : (fun i => g.getD i none == none) j = true := by
    show (g.getD j none == none) = true
    rw [hje]
    rfl
  rw [minimax_rec _ _ _ _ _ hcw hnf]
  simp only [Bool.false_eq_true, if_false, Bool.not_false]
  exact (foldl_selStep_min (fun i => g.getD i none == none)
    (fun i => (minimax Mark.O Mark.X f (g.set i (some Mark.X)) true).1)
    idxList ((2 : Int), none)).2 j hjidx hjemp

/-! ## A pruned safety certificate for the minimax scores

`safeB` is a verification auxiliary (not part of the source): a
conservative check that the side to move keeps the human mark `X` from
ever completing a line.  Its `true` runs are certificates transferred to
`minimax` scores by `safeB_sound`; kernel evaluation of `safeB` explores
far fewer positions than `minimax` because the maximizing side commits
to its first safe move. -/

/-- Move ordering used by `safeB` (centre, corners, edges) — chosen only
to keep the certificate search small. -/
def ordIdx : List Nat := [4, 0, 2, 6, 8, 1, 3, 5, 7]

theorem mem_ordIdx {i : Nat} : i ∈ ordIdx ↔ i < 9 := by
  simp only [ordIdx, List.mem_cons, List.not_mem_nil, or_false]
  omega

/-- `safeB f isMax g = true` certifies: no `X` line yet and, with the
bot (`isMax = true`) committing to some empty cell and the human
(`isMax = false`) free to pick any empty cell, `X` never completes a
line within `f` further plies. -/
def safeB : Nat → Bool → List Cell → Bool
  | fuel, isMax, g =>
    if hasLineFor Mark.X g then false
    else if hasLineFor Mark.O g then true
    else if boardFull g then true
    else
      match fuel with
      | 0 => false
      | f + 1 =>
        if isMax then
          ordIdx.any fun i =>
            (g.getD i none == none) && safeB f false (g.set i (some Mark.O))
        else
          ordIdx.all fun i =>
            !(g.getD i none == none) || safeB f true (g.set i (some Mark.X))

theorem safeB_eq (fuel : Nat) (isMax : Bool) (g : List Cell) :
    safeB fuel isMax g =
      (if hasLineFor Mark.X g then false
      else if hasLineFor Mark.O g then true
      else if boardFull g then true
      else
        match fuel with
        | 0 => false
        | f + 1 =>
          if isMax then
            ordIdx.any fun i =>
              (g.getD i none == none) && safeB f false (g.set i (some Mark.O))
          else
            ordIdx.all fun i =>
              !(g.getD i none == none) || safeB f true (g.set i (some Mark.X))) := by
  rw [safeB.eq_def]

theorem safeB_sound :
    ∀ (f : Nat) (b : Bool) (g : List Cell), safeB f b g = true →
      0 ≤ (minimax Mark.O Mark.X f g b).1 := by
  intro f
  induction f with
  | zero =>
    intro b g h
    rw [safeB_eq] at h
    by_cases hX : hasLineFor Mark.X g = true
    · rw [if_pos hX] at h
      simp at h
    · have hXf : hasLineFor Mark.X g = false := Bool.eq_false_iff.mpr hX
      rw [if_neg hX] at h
      by_cases hO : hasLineFor Mark.O g = true
      · cases hc : calculateWinner g with
        | none =>
          obtain ⟨l, hl, hall⟩ := (hasLineFor_iff _ _).mp hO
          exact absurd hc (calculateWinner_ne_none hl hall)
        | some p =>
          obtain ⟨m, l⟩ := p
          cases m with
          | X => exact absurd (hasLineFor_of_winner hc) (Bool.eq_false_iff.mp hXf)
          | O =>
            rw [minimax_botwin _ _ _ _ _ (by rw [hc]; rfl)]
            norm_num
      · have hcwn : calculateWinner g = none := by
          cases hc : calculateWinner g with
          | none => rfl
          | some p =>
            obtain ⟨m, l⟩ := p
            have hw := hasLineFor_of_winner hc
            cases m with
            | X => exact absurd hw (Bool.eq_false_iff.mp hXf)
            | O => exact absurd hw hO
        rw [if_neg hO] at h
        by_cases hfull : boardFull g = true
        · rw [minimax_full _ _ _ _ _ hcwn hfull]
        · rw [if_neg hfull] at h
          simp at h
  | succ f ih =>
    intro b g h
    rw [safeB_eq] at h
    by_cases hX : hasLineFor Mark.X g = true
    · rw [if_pos hX] at h
      simp at h
    · have hXf : hasLineFor Mark.X g = false := Bool.eq_false_iff.mpr hX
      rw [if_neg hX] at h
      by_cases hO : hasLineFor Mark.O g = true
      · cases hc : calculateWinner g with
        | none =>
          obtain ⟨l, hl, hall⟩ := (hasLineFor_iff _ _).mp hO
          exact absurd hc (calculateWinner_ne_none hl hall)
        | some p =>
          obtain ⟨m, l⟩ := p
          cases m with
          | X => exact absurd (hasLineFor_of_winner hc) (Bool.eq_false_iff.mp hXf)
          | O =>
            rw [minimax_botwin _ _ _ _ _ (by rw [hc]; rfl)]
            norm_num
      · have hcwn : calculateWinner g = none := by
          cases hc : calculateWinner g with
          | none => rfl
          | some p =>
            obtain ⟨m, l⟩ := p
            have hw := hasLineFor_of_winner hc
            cases m with
            | X => exact absurd hw (Bool.eq_false_iff.mp hXf)
            | O => exact absurd hw hO
        rw [if_neg hO] at h
        by_cases hfull : boardFull g = true
        · rw [minimax_full _ _ _ _ _ hcwn hfull]
        · rw [if_neg hfull] at h
          have hnf : boardFull g = false := Bool.eq_false_iff.mpr hfull
          cases b
          · have h' : (ordIdx.all fun x =>
                !(g.getD x none == none) || safeB f true (g.set x (some Mark.X))) = true := by
              simpa using h
            rw [minimax_rec _ _ _ _ _ hcwn hnf]
            simp only [Bool.false_eq_true, if_false, Bool.not_false]
            rcases foldl_selStep_result (fun i => g.getD i none == none)
                (fun i => (minimax Mark.O Mark.X f (g.set i (some Mark.X)) true).1)
                false idxList ((2 : Int), none)
              with hr | ⟨i, hiidx, hie, hr⟩
            · rw [hr]
              norm_num
            · rw [hr]
              have hi9 : i < 9 := mem_idxList.mp hiidx
              have hiord : i ∈ ordIdx := mem_ordIdx.mpr hi9
              have hx := List.all_eq_true.mp h' i hiord
              rw [hie] at hx
              have hsafe : safeB f true (g.set i (some Mark.X)) = true := by
                simpa using hx
              exact ih true (g.set i (some Mark.X)) hsafe
          · have h' : (ordIdx.any fun x =>
                (g.getD x none == none) && safeB f false (g.set x (some Mark.O))) = true := by
              simpa using h
            obtain ⟨i, hiord, hi⟩ := List.any_eq_true.mp h'
            have hi2 : (g.getD i none == none) = true ∧
                safeB f false (g.set i (some Mark.O)) = true := by simpa using hi
            obtain ⟨hie, hsafe⟩ := hi2
            have hi9 : i < 9 := mem_ordIdx.mp hiord
            have hiidx : i ∈ idxList := mem_idxList.mpr hi9
            rw [minimax_rec _ _ _ _ _ hcwn hnf]
            simp only [eq_self_iff_true, if_true, Bool.not_true]
            have h2 := (foldl_selStep_max (fun i => g.getD i none == none)
              (fun i => (minimax Mark.O Mark.X f (g.set i (some Mark.O)) false).1)
              idxList ((-2 : Int), none)).2 i hiidx hie
            have h3 := ih false (g.set i (some Mark.O)) hsafe
            omega

/-! The board is a draw under optimal play from the start.  The safety
certificate for the empty board is assembled from nine kernel-evaluated
certificates, one per first human move, to keep each evaluation small. -/

theorem safeB_empty_c4 :
    safeB 8 true (emptyBoard.set 4 (some Mark.X)) = true := by decide!

theorem safeB_empty_c0 :
    safeB 8 true (emptyBoard.set 0 (some Mark.X)) = true := by decide!

theorem safeB_empty_c2 :
    safeB 8 true (emptyBoard.set 2 (some Mark.X)) = true := by decide!

theorem safeB_empty_c6 :
    safeB 8 true (emptyBoard.set 6 (some Mark.X)) = true := by decide!

theorem safeB_empty_c8 :
    safeB 8 true (emptyBoard.set 8 (some Mark.X)) = true := by decide!

theorem safeB_empty_c1 :
    safeB 8 true (emptyBoard.set 1 (some Mark.X)) = true := by decide!

theorem safeB_empty_c3 :
    safeB 8 true (emptyBoard.set 3 (some Mark.X)) = true := by decide!

theorem safeB_empty_c5 :
    safeB 8 true (emptyBoard.set 5 (some Mark.X)) = true := by decide!

theorem safeB_empty_c7 :
    safeB 8 true (emptyBoard.set 7 (some Mark.X)) = true := by decide!

/-- The safety certificate for the empty board. -/
theorem safeB_emptyBoard : safeB 9 false emptyBoard = true := by
  change (ordIdx.all fun i =>
    !(emptyBoard.getD i none == none) ||
      safeB 8 true (emptyBoard.set i (some Mark.X))) = true
  simp only [ordIdx, List.all_cons, List.all_nil,
    safeB_empty_c4, safeB_empty_c0, safeB_empty_c2, safeB_empty_c6,
    safeB_empty_c8, safeB_empty_c1, safeB_empty_c3, safeB_empty_c5,
    safeB_empty_c7, Bool.or_true, Bool.and_true]

theorem emptyBoard_min_score :
    0 ≤ (minimax Mark.O Mark.X 9 emptyBoard false).1 :=
  safeB_sound 9 false emptyBoard safeB_emptyBoard

/-! ## Play relations -/

/-- The moves `getBestMove` can submit for the bot (`O` against human
`X`): its result for some value of the random draw of the fallback
(`r` below the length of the empty list, as `Math.floor(Math.random() *
empty.length)` always is). -/
def botChoice (g : List Cell) (i : Nat) : Prop :=
  ∃ r, r < (emptyIndices g).length ∧ getBestMove g Mark.O Mark.X r = i

/-- Grids reachable from the empty grid by legal alternating play (the
human mark `X` moves first, each move fills an empty cell of the 3×3
grid, play stops at terminal grids), with both sides free. -/
inductive Reach : List Cell → Prop where
  | init : Reach emptyBoard
  | human (g : List Cell) (i : Nat) : Reach g →
      countM Mark.X g = countM Mark.O g → terminalGrid g = false →
      i < 9 → g.getD i none = none → Reach (g.set i (some Mark.X))
  | bot (g : List Cell) (i : Nat) : Reach g →
      countM Mark.X g = countM Mark.O g + 1 → terminalGrid g = false →
      i < 9 → g.getD i none = none → Reach (g.set i (some Mark.O))

/-- Continuations of a play from `g₀` in which the human plays freely
and every bot move is chosen by `getBestMove`. -/
inductive BotPlay (g₀ : List Cell) : List Cell → Prop where
  | refl : BotPlay g₀ g₀
  | human (g : List Cell) (i : Nat) : BotPlay g₀ g →
      countM Mark.X g = countM Mark.O g → terminalGrid g = false →
      i < 9 → g.getD i none = none → BotPlay g₀ (g.set i (some Mark.X))
  | bot (g : List Cell) (i : Nat) : BotPlay g₀ g →
      countM Mark.X g = countM Mark.O g + 1 → terminalGrid g = false →
      botChoice g i → BotPlay g₀ (g.set i (some Mark.O))

/-- Grids reachable from the empty grid by legal alternating play in
which every bot move was chosen by `getBestMove`. -/
inductive ReachBot : List Cell → Prop where
  | init : ReachBot emptyBoard
  | human (g : List Cell) (i : Nat) : ReachBot g →
      countM Mark.X g = countM Mark.O g → terminalGrid g = false →
      i < 9 → g.getD i none = none → ReachBot (g.set i (some Mark.X))
  | bot (g : List Cell) (i : Nat) : ReachBot g →
      countM Mark.X g = countM Mark.O g + 1 → terminalGrid g = false →
      botChoice g i → ReachBot (g.set i (some Mark.O))

theorem botPlay_reachBot {g g' : List Cell} (h : BotPlay g g') (hg : ReachBot g) :
    ReachBot g' := by
  induction h with
  | refl => exact hg
  | human g1 i hbp hT hterm hi9 hie ih => exact ReachBot.human g1 i ih hT hterm hi9 hie
  | bot g1 i hbp hT hterm hbc ih => exact ReachBot.bot g1 i ih hT hterm hbc

/-- The invariant along `getBestMove` play: the grid stays a 9-cell
grid, `X` never has a line, and at every non-terminal grid the side to
move has a non-negative `minimax` score for the bot. -/
theorem reachBot_invariant :
    ∀ g, ReachBot g →
      g.length = 9 ∧ hasLineFor Mark.X g = false ∧
      (countM Mark.X g = countM Mark.O g → terminalGrid g = false →
        0 ≤ (minimax Mark.O Mark.X 9 g false).1) ∧
      (countM Mark.X g = countM Mark.O g + 1 → terminalGrid g = false →
        0 ≤ (minimax Mark.O Mark.X 9 g true).1) := by
  intro g h
  induction h with
  | init =>
    refine ⟨by decide, by decide, fun _ _ => emptyBoard_min_score, fun hc _ => ?_⟩
    exact absurd hc (by decide)
  | human g i hg hT hterm hi9 hie ih =>
    obtain ⟨h9, hnoX, hminC, hmaxC⟩ := ih
    obtain ⟨hcw, hnf⟩ := terminalGrid_false g hterm
    have hscore := hminC hT hterm
    have hcn : countNone g ≤ 9 := h9 ▸ countNone_le_length g
    have hlt : i < g.length := by omega
    have hlen : (g.set i (some Mark.X)).length = 9 := by
      rw [List.length_set]; exact h9
    have hcns := countNone_set g Mark.X hlt hie
    have h1 : (minimax Mark.O Mark.X 9 g false).1 ≤
        (minimax Mark.O Mark.X 8 (g.set i (some Mark.X)) true).1 :=
      minimax_min_child_ge 8 g h9 hcw hnf i hi9 hie
    have h2 : minimax Mark.O Mark.X 8 (g.set i (some Mark.X)) true =
        minimax Mark.O Mark.X 9 (g.set i (some Mark.X)) true :=
      minimax_fuel_congr 8 9 _ true hlen (by omega) (by omega)
    have hscore' : 0 ≤ (minimax Mark.O Mark.X 9 (g.set i (some Mark.X)) true).1 := by
      rw [← h2]; omega
    have hx' : hasLineFor Mark.X (g.set i (some Mark.X)) = false := by
      by_contra hb
      have hx2 : hasLineFor Mark.X (g.set i (some Mark.X)) = true := by
        cases hv : hasLineFor Mark.X (g.set i (some Mark.X))
        · exact absurd hv hb
        · rfl
      have hmapx := cw_set_x_map hlt hcw hx2
      have hnex : (calculateWinner (g.set i (some Mark.X))).map Prod.fst ≠
          some Mark.O := by
        rw [hmapx]; simp
      rw [minimax_humwin Mark.O Mark.X 9 _ true hnex hmapx] at hscore'
      dsimp only at hscore'
      omega
    have hcx := countM_set_eq g Mark.X hlt hie
    have hco := countM_set_ne g (by simp : Mark.X ≠ Mark.O) hlt hie
    refine ⟨hlen, hx', fun hc _ => ?_, fun _ _ => hscore'⟩
    exfalso
    rw [hcx, hco] at hc
    omega
  | bot g i hg hT hterm hbc ih =>
    obtain ⟨h9, hnoX, hminC, hmaxC⟩ := ih
    obtain ⟨hcw, hnf⟩ := terminalGrid_false g hterm
    have hscore := hmaxC hT hterm
    have hcn : countNone g ≤ 9 := h9 ▸ countNone_le_length g
    obtain ⟨i₀, hi₀9, hi₀e, hmv, hsc⟩ := minimax_max_move 8 g h9 hcw hnf hcn
    obtain ⟨r, hr, hgb⟩ := hbc
    unfold getBestMove at hgb
    rw [hmv] at hgb
    have hii : i₀ = i := by simpa using hgb
    subst hii
    have hlt : i₀ < g.length := by omega
    have hlen : (g.set i₀ (some Mark.O)).length = 9 := by
      rw [List.length_set]; exact h9
    have hcns := countNone_set g Mark.O hlt hi₀e
    have h2 : minimax Mark.O Mark.X 8 (g.set i₀ (some Mark.O)) false =
        minimax Mark.O Mark.X 9 (g.set i₀ (some Mark.O)) false :=
      minimax_fuel_congr 8 9 _ false hlen (by omega) (by omega)
    have hscore' : 0 ≤ (minimax Mark.O Mark.X 9 (g.set i₀ (some Mark.O)) false).1 := by
      rw [← h2, ← hsc]; exact hscore
    have hx' : hasLineFor Mark.X (g.set i₀ (some Mark.O)) = false := by
      by_contra hb
      have hx2 : hasLineFor Mark.X (g.set i₀ (some Mark.O)) = true := by
        cases hv : hasLineFor Mark.X (g.set i₀ (some Mark.O))
        · exact absurd hv hb
        · rfl
      rw [hasLineFor_x_of_set_o hlt hx2] at hnoX
      simp at hnoX
    have hcx := countM_set_ne g (by simp : Mark.O ≠ Mark.X) hlt hi₀e
    have hco := countM_set_eq g Mark.O hlt hi₀e
    refine ⟨hlen, hx', fun _ _ => hscore', fun hc _ => ?_⟩
    exfalso
    rw [hcx, hco] at hc
    omega

/-! ## Claim C1 -/

/-- C1, as stated, is false: the grid with `X` at 0, 2, 6 and `O` at 4, 8
is reachable by legal alternating play (X0, O4, X2, O8, X6) and it is the
bot's turn, but `X` threatens both cells 1 and 3, so the continuation in
which the bot answers with `getBestMove` (which picks cell 1) and the
human then plays cell 3 ends in a win for the human mark. -/
theorem optimal_strategy_claim_counterexample :
    ¬ (∀ g g' : List Cell, Reach g → countM Mark.X g = countM Mark.O g + 1 →
        BotPlay g g' → (calculateWinner g').map Prod.fst ≠ some Mark.X) := by
  intro hclaim
  have r1 : Reach [some Mark.X, none, none, none, none, none, none, none, none] :=
    Reach.human emptyBoard 0 Reach.init (by decide) (by decide) (by decide) (by decide)
  have r2 : Reach [some Mark.X, none, none, none, some Mark.O, none, none, none, none] :=
    Reach.bot _ 4 r1 (by decide) (by decide) (by decide) (by decide)
  have r3 : Reach [some Mark.X, none, some Mark.X, none, some Mark.O, none,
      none, none, none] :=
    Reach.human _ 2 r2 (by decide) (by decide) (by decide) (by decide)
  have r4 : Reach [some Mark.X, none, some Mark.X, none, some Mark.O, none,
      none, none, some Mark.O] :=
    Reach.bot _ 8 r3 (by decide) (by decide) (by decide) (by decide)
  have r5 : Reach [some Mark.X, none, some Mark.X, none, some Mark.O, none,
      some Mark.X, none, some Mark.O] :=
    Reach.human _ 6 r4 (by decide) (by decide) (by decide) (by decide)
  have p1 : BotPlay
      [some Mark.X, none, some Mark.X, none, some Mark.O, none,
        some Mark.X, none, some Mark.O]
      [some Mark.X, some Mark.O, some Mark.X, none, some Mark.O, none,
        some Mark.X, none, some Mark.O] :=
    BotPlay.bot _ 1 BotPlay.refl (by decide) (by decide) ⟨0, by decide, by decide⟩
  have p2 : BotPlay
      [some Mark.X, none, some Mark.X, none, some Mark.O, none,
        some Mark.X, none, some Mark.O]
      [some Mark.X, some Mark.O, some Mark.X, some Mark.X, some Mark.O, none,
        some Mark.X, none, some Mark.O] :=
    BotPlay.human _ 3 p1 (by decide) (by decide) (by decide) (by decide)
  exact hclaim _ _ r5 (by decide) p2 (by decide)

/-- **C1 (amended).** For every grid reachable from the empty grid by
legal alternating play in which every bot move was chosen by
`getBestMove`, at which it is the bot's turn, and for every continuation
in which the human moves freely and the bot keeps playing `getBestMove`,
the outcome is never a win for the human mark. -/
theorem optimal_strategy_never_loses (g g' : List Cell)
    (hreach : ReachBot g) (hturn : countM Mark.X g = countM Mark.O g + 1)
    (hplay : BotPlay g g') :
    (calculateWinner g').map Prod.fst ≠ some Mark.X :=
  winner_map_ne_x (reachBot_invariant g' (botPlay_reachBot hplay hreach)).2.1

/-- Witness for `optimal_strategy_never_loses` at the grid with a single
`X` in the corner. -/
theorem optimal_strategy_never_loses_witness :
    (calculateWinner
        [some Mark.X, none, none, none, none, none, none, none, none]).map
      Prod.fst ≠ some Mark.X :=
  optimal_strategy_never_loses _ _
    (ReachBot.human emptyBoard 0 ReachBot.init (by decide) (by decide)
      (by decide) (by decide))
    (by decide) BotPlay.refl

/-! ## Claim C2 -/

theorem findSome?_congr {α β : Type} (f₁ f₂ : α → Option β) :
    ∀ (L : List α), (∀ a ∈ L, f₁ a = f₂ a) →
      L.findSome? f₁ = L.findSome? f₂ := by
  intro L
  induction L with
  | nil => intro _; rfl
  | cons a L ih =>
    intro h
    rw [List.findSome?_cons, List.findSome?_cons, h a (List.mem_cons_self a L)]
    cases f₂ a with
    | some b => rfl
    | none => exact ih fun x hx => h x (List.mem_cons_of_mem a hx)

theorem lineCheck_eq_specLineWinner (s : List Cell) (t : List Nat) :
    lineCheck s t = (specLineWinner s t).map (fun m => (m, t)) := by
  match t with
  | [] => rfl
  | [a] =>
    simp only [lineCheck, specLineWinner, List.map_cons, List.map_nil]
    cases ha : s.getD a none <;> rfl
  | [a, b] =>
    simp only [lineCheck, specLineWinner, List.map_cons, List.map_nil]
    cases ha : s.getD a none <;> cases hb : s.getD b none <;> rfl
  | (a :: b :: c :: d :: r) =>
    simp only [lineCheck, specLineWinner, List.map_cons, List.map_nil]
    cases ha : s.getD a none <;> cases hb : s.getD b none <;>
      cases hc : s.getD c none <;> rfl
  | [a, b, c] =>
    simp only [lineCheck, specLineWinner, List.map_cons, List.map_nil]
    cases ha : s.getD a none with
    | none => rfl
    | some x =>
      cases hb : s.getD b none with
      | none =>
        dsimp only
        rw [if_neg (by simp : ¬((none : Cell) = some x ∧ s.getD c none = some x))]
        cases hc : s.getD c none <;> rfl
      | some y =>
        cases hc : s.getD c none with
        | none =>
          dsimp only
          rw [if_neg (by simp : ¬((some y : Cell) = some x ∧ (none : Cell) = some x))]
          rfl
        | some z =>
          dsimp only
          have hiff : ((some y : Cell) = some x ∧ (some z : Cell) = some x) ↔
              (x = y ∧ y = z) := by
            constructor <;> rintro ⟨u, v⟩ <;> simp_all
          by_cases hcond : x = y ∧ y = z
          · rw [if_pos (hiff.mpr hcond), if_pos hcond]
            rfl
          · rw [if_neg fun hh => hcond (hiff.mp hh), if_neg hcond]
            rfl

/-- **C2.** On every 9-cell grid the outcome evaluator agrees with the
spec's description: the first of the 8 fixed triples (rows top-to-bottom,
then columns left-to-right, then the two diagonals) whose three cells are
equal and non-empty gives `Win(mark, triple)`; with no winning triple,
`Draw` when all 9 cells are occupied, and no result otherwise. -/
theorem evaluate_matches_spec (squares : List Cell) (h9 : squares.length = 9) :
    evaluate squares = evaluateSpec squares := by
  unfold evaluate evaluateSpec calculateWinner
  simp only [show specLines = lines from rfl]
  rw [findSome?_congr (lineCheck squares)
    (fun t => (specLineWinner squares t).map fun m => (m, t)) lines
    (fun t _ => lineCheck_eq_specLineWinner squares t)]
  cases hf : lines.findSome? (fun t => (specLineWinner squares t).map fun m => (m, t)) with
  | some p =>
    obtain ⟨m, l⟩ := p
    rfl
  | none =>
    have hfc : boardFull squares = true ↔
        squares.countP (fun c => c.isSome) = 9 := by
      unfold boardFull
      constructor
      · intro h
        rw [List.countP_eq_length.mpr (List.all_eq_true.mp h)]
        exact h9
      · intro h
        exact List.all_eq_true.mpr (List.countP_eq_length.mp (h.trans h9.symm))
    by_cases hb : boardFull squares = true
    · rw [if_pos hb, if_pos (hfc.mp hb)]
    · rw [if_neg hb, if_neg fun hc => hb (hfc.mpr hc)]

/-- Witness for `evaluate_matches_spec` on a concrete won grid. -/
theorem evaluate_matches_spec_witness :
    ([some Mark.X, some Mark.X, some Mark.X, some Mark.O, some Mark.O, none,
        none, none, none] : List Cell).length = 9 ∧
      evaluate [some Mark.X, some Mark.X, some Mark.X, some Mark.O, some Mark.O,
          none, none, none, none] =
        evaluateSpec [some Mark.X, some Mark.X, some Mark.X, some Mark.O,
          some Mark.O, none, none, none, none] :=
  ⟨by decide, evaluate_matches_spec _ (by decide)⟩

/-! ## Claim C3 -/

/-- **C3** fails on the code: after the win X0 O3 X1 O4 X2 (X wins on
the top row, tally X = 1), jumping to the start and back to the final
grid changes the score-tracking effect's dependencies `[winner, step]`
twice, and on re-viewing the winning grid the effect increments X's
tally again (X = 2), although no Select transition newly produced a
terminal outcome and the claim says a JumpTo never changes the tally. -/
theorem score_retally_on_jump :
    (runEvents initApp [Event.select 0, Event.select 3, Event.select 1,
        Event.select 4, Event.select 2]).sess.scores.X = 1 ∧
      (runEvents initApp [Event.select 0, Event.select 3, Event.select 1,
        Event.select 4, Event.select 2, Event.jump 0, Event.jump 5]).sess.scores.X
        = 2 := by
  constructor <;> rfl

/-! ## Claim C4 -/

/-- A session viewing stale history: two grids recorded, the empty start
grid viewed. -/
def staleSession : Session :=
  { history := [emptyBoard, emptyBoard.set 0 (some Mark.X)], step := 0,
    xIsNext := true, mode := Mode.human, difficulty := Difficulty.easy,
    names := ("Player X", "Player O"), scores := { X := 0, O := 0, Draw := 0 } }

/-- C4, as stated, is false: on `staleSession` the view index 0 is less
than `|History| - 1 = 1` and cell 4 of the viewed grid is empty, yet
`handleClick` is not a no-op — it truncates the history and appends (the
view index moves to 1). -/
theorem select_stale_history_counterexample :
    ¬ (∀ (s : Session) (i : Nat), i < 9 →
        ((currentSquares s).getD i none ≠ none ∨
          terminalGrid (currentSquares s) = true ∨
          s.step < s.history.length - 1) →
        handleClick s i = s) := by
  intro h
  have hnoop := h staleSession 4 (by decide) (Or.inr (Or.inr (by decide)))
  have hstep : (handleClick staleSession 4).step = 1 := by decide
  rw [hnoop] at hstep
  exact absurd hstep (by decide)

/-- **C4 (amended).** Select on an occupied cell, or while the currently
viewed 9-cell grid is terminal, is a silent no-op: the whole session —
in particular History, the view index and the turn — is unchanged.
(Select while merely viewing stale history is not a no-op: it truncates
and appends, see C5.) -/
theorem select_occupied_or_terminal_noop (s : Session) (i : Nat) (hi : i < 9)
    (h : (currentSquares s).getD i none ≠ none ∨
      (terminalGrid (currentSquares s) = true ∧ (currentSquares s).length = 9)) :
    handleClick s i = s := by
  have hguard : (((currentSquares s).getD i none).isSome
      || (calculateWinner (currentSquares s)).isSome) = true := by
    rcases h with h | ⟨ht, h9⟩
    · have hx : ((currentSquares s).getD i none).isSome = true := by
        cases hv : (currentSquares s).getD i none with
        | none => exact absurd hv h
        | some m => rfl
      rw [hx, Bool.true_or]
    · unfold terminalGrid at ht
      cases hw : (calculateWinner (currentSquares s)).isSome with
      | true => rw [Bool.or_true]
      | false =>
        rw [hw, Bool.false_or] at ht
        unfold boardFull at ht
        have hlt : i < (currentSquares s).length := by omega
        have hmem : (currentSquares s)[i] ∈ currentSquares s :=
          (currentSquares s).getElem_mem hlt
        have hsome := List.all_eq_true.mp ht _ hmem
        have hx : ((currentSquares s).getD i none).isSome = true := by
          rw [List.getD_eq_getElem _ _ hlt]
          exact hsome
        rw [hx, Bool.true_or]
  unfold handleClick
  dsimp only
  rw [if_pos hguard]

/-- A session viewing a grid with an occupied cell 0. -/
def occupiedSession : Session :=
  { history := [emptyBoard, emptyBoard.set 0 (some Mark.X)], step := 1,
    xIsNext := false, mode := Mode.human, difficulty := Difficulty.easy,
    names := ("Player X", "Player O"), scores := { X := 0, O := 0, Draw := 0 } }

/-- Witness for `select_occupied_or_terminal_noop`: clicking the occupied
cell 0 changes nothing. -/
theorem select_occupied_or_terminal_noop_witness :
    handleClick occupiedSession 0 = occupiedSession :=
  select_occupied_or_terminal_noop occupiedSession 0 (by decide)
    (Or.inl (by decide))

/-! ## Claim C5 -/

/-- **C5.** After `JumpTo(k)` with `k < |History|`, an accepted
`Select(c)` (cell empty, viewed grid without a winner) truncates the
history beyond index `k` before appending: the new length is `k + 2` and
the view index becomes `k + 1`. -/
theorem jump_then_select_truncates (s : Session) (k c : Nat)
    (hk : k < s.history.length)
    (hempty : (currentSquares (jumpTo s k)).getD c none = none)
    (hnw : calculateWinner (currentSquares (jumpTo s k)) = none) :
    (handleClick (jumpTo s k) c).history.length = k + 2 ∧
      (handleClick (jumpTo s k) c).step = k + 1 := by
  have hguard : (((currentSquares (jumpTo s k)).getD c none).isSome
      || (calculateWinner (currentSquares (jumpTo s k))).isSome) = false := by
    rw [hempty, hnw]
    rfl
  unfold handleClick
  dsimp only
  rw [hguard]
  simp only [Bool.false_eq_true, if_false]
  have hlen : ((jumpTo s k).history.take ((jumpTo s k).step + 1) ++
      [(currentSquares (jumpTo s k)).set c
        (some (if (jumpTo s k).xIsNext then Mark.X else Mark.O))]).length
      = k + 2 := by
    simp only [List.length_append, List.length_take, List.length_cons,
      List.length_nil, jumpTo]
    omega
  constructor
  · exact hlen
  · rw [hlen]
    omega

/-- Witness for `jump_then_select_truncates`: jump to the start of a
two-grid history and select cell 4. -/
theorem jump_then_select_truncates_witness :
    (handleClick (jumpTo staleSession 0) 4).history.length = 0 + 2 ∧
      (handleClick (jumpTo staleSession 0) 4).step = 0 + 1 :=
  jump_then_select_truncates staleSession 0 4 (by decide) (by decide) (by decide)

/-! ## Claim C6 -/

/-- **C6.** Move selection is independent of the difficulty setting: two
sessions differing only in the difficulty value agree on whether it is
the bot's turn and on the set of moves the bot-move effect can submit,
and that set is the Random strategy's candidate list (the empty cells) —
the minimax search path contributes nothing to it. -/
theorem bot_move_independent_of_difficulty (s : Session) (d₁ d₂ : Difficulty) :
    isBotTurn { s with difficulty := d₁ } = isBotTurn { s with difficulty := d₂ } ∧
      botEffectMoves { s with difficulty := d₁ } =
        botEffectMoves { s with difficulty := d₂ } ∧
      botEffectMoves { s with difficulty := d₁ } =
        (if isBotTurn s then emptyIndices (currentSquares s) else []) :=
  ⟨rfl, rfl, rfl⟩

/-! ## Claim C7 -/

/-- **C7.** `jumpTo` recomputes turn ownership from parity alone: after
`JumpTo(k)` the view index is `k`, it is X's turn exactly when `k` is
even and O's turn exactly when `k` is odd. -/
theorem jumpTo_parity (s : Session) (k : Nat) (hk : k < s.history.length) :
    (jumpTo s k).step = k ∧
      ((jumpTo s k).xIsNext = true ↔ k % 2 = 0) ∧
      ((jumpTo s k).xIsNext = false ↔ k % 2 = 1) := by
  refine ⟨rfl, ?_, ?_⟩
  · show ((k % 2 == 0) = true) ↔ k % 2 = 0
    simp
  · show ((k % 2 == 0) = false) ↔ k % 2 = 1
    rw [beq_eq_false_iff_ne]
    omega

/-- Witness for `jumpTo_parity` at index 1 of a two-grid history. -/
theorem jumpTo_parity_witness :
    (jumpTo staleSession 1).step = 1 ∧
      ((jumpTo staleSession 1).xIsNext = true ↔ 1 % 2 = 0) ∧
      ((jumpTo staleSession 1).xIsNext = false ↔ 1 % 2 = 1) :=
  jumpTo_parity staleSession 1 (by decide)

/-! ## Claims C8 and C10 -/

theorem stepApp_reset_sess (a : AppState) :
    (stepApp a Event.reset).sess =
      { a.sess with history := [emptyBoard], step := 0, xIsNext := true } := by
  unfold stepApp
  by_cases h : scoreDeps (handleEvent a.sess Event.reset) = a.prevDeps
  · rw [if_pos h]
    rfl
  · rw [if_neg h]
    rfl

/-- **C8.** `Reset` after any sequence of events reinitializes the game
and frames everything else: History becomes the single empty grid, the
view index 0, the turn X's, while the score tally, the name mapping and
the mode (and the difficulty) are unchanged — also across the score
effect, which does nothing on the empty grid. -/
theorem reset_reinitializes_and_frames (es : List Event) :
    (stepApp (runEvents initApp es) Event.reset).sess.history = [emptyBoard] ∧
      (stepApp (runEvents initApp es) Event.reset).sess.step = 0 ∧
      (stepApp (runEvents initApp es) Event.reset).sess.xIsNext = true ∧
      (stepApp (runEvents initApp es) Event.reset).sess.scores =
        (runEvents initApp es).sess.scores ∧
      (stepApp (runEvents initApp es) Event.reset).sess.names =
        (runEvents initApp es).sess.names ∧
      (stepApp (runEvents initApp es) Event.reset).sess.mode =
        (runEvents initApp es).sess.mode := by
  have h := stepApp_reset_sess (runEvents initApp es)
  refine ⟨by rw [h], by rw [h], by rw [h], by rw [h], by rw [h], by rw [h]⟩

theorem stepApp_difficulty_sess (a : AppState) (d : Difficulty) :
    (stepApp a (Event.setDifficulty d)).sess =
      { a.sess with difficulty := d, history := [emptyBoard], step := 0, xIsNext := true } := by
  unfold stepApp
  by_cases h : scoreDeps (handleEvent a.sess (Event.setDifficulty d)) = a.prevDeps
  · rw [if_pos h]
    rfl
  · rw [if_neg h]
    rfl

/-- **C10.** Changing the difficulty resets the game in progress:
History becomes the single empty grid, the view index 0, the turn X's,
while mode, names and the score tally are unchanged (and the difficulty
takes the new value). -/
theorem difficulty_change_resets (a : AppState) (d : Difficulty) :
    (stepApp a (Event.setDifficulty d)).sess.history = [emptyBoard] ∧
      (stepApp a (Event.setDifficulty d)).sess.step = 0 ∧
      (stepApp a (Event.setDifficulty d)).sess.xIsNext = true ∧
      (stepApp a (Event.setDifficulty d)).sess.mode = a.sess.mode ∧
      (stepApp a (Event.setDifficulty d)).sess.names = a.sess.names ∧
      (stepApp a (Event.setDifficulty d)).sess.scores = a.sess.scores ∧
      (stepApp a (Event.setDifficulty d)).sess.difficulty = d := by
  have h := stepApp_difficulty_sess a d
  refine ⟨by rw [h], by rw [h], by rw [h], by rw [h], by rw [h], by rw [h],
    by rw [h]⟩

/-! ## Claim C9 -/

theorem mem_emptyIndices (squares : List Cell) (i : Nat) :
    i ∈ emptyIndices squares ↔ squares.get? i = some none := by
  unfold emptyIndices
  rw [List.mem_filterMap]
  constructor
  · rintro ⟨⟨j, c⟩, hmem, hval⟩
    by_cases hc : c = none
    · rw [if_pos hc] at hval
      have hji : j = i := by simpa using hval
      subst hji
      subst hc
      exact (List.mk_mem_enum_iff_get? ).mp hmem
    · rw [if_neg hc] at hval
      simp at hval
  · intro h
    exact ⟨(i, none), List.mk_mem_enum_iff_get?.mpr h, by simp⟩

/-- **C9.** Both random choices — `getRandomMove` and the inlined choice
of the bot-move effect — only ever produce indices in `0‥8` of cells
that are empty in the grid. -/
theorem random_move_selects_empty (squares : List Cell) (r : Nat)
    (h9 : squares.length = 9) (hr : r < (emptyIndices squares).length) :
    (getRandomMove squares r < 9 ∧
        squares.get? (getRandomMove squares r) = some none) ∧
      (∀ s : Session, currentSquares s = squares →
        ∀ i ∈ botEffectMoves s, i < 9 ∧ squares.get? i = some none) := by
  have hlt : ∀ j, squares.get? j = some none → j < 9 := by
    intro j hj
    have hj2 : squares[j]? = some none := by
      rw [← List.get?_eq_getElem?]
      exact hj
    obtain ⟨hlen, _⟩ := List.getElem?_eq_some.mp hj2
    omega
  constructor
  · have hmem : getRandomMove squares r ∈ emptyIndices squares := by
      unfold getRandomMove
      rw [List.getD_eq_getElem _ _ hr]
      exact List.getElem_mem hr
    have hget := (mem_emptyIndices squares _).mp hmem
    exact ⟨hlt _ hget, hget⟩
  · intro s hs i hi
    unfold botEffectMoves at hi
    by_cases hb : isBotTurn s = true
    · rw [if_pos hb, hs] at hi
      have hget := (mem_emptyIndices squares _).mp hi
      exact ⟨hlt _ hget, hget⟩
    · rw [if_neg hb] at hi
      simp at hi

/-- Witness for `random_move_selects_empty` on a grid with three empty
cells, at random draw 1. -/
theorem random_move_selects_empty_witness :
    ((getRandomMove [some Mark.X, none, some Mark.O, none, some Mark.X,
          some Mark.O, some Mark.X, none, some Mark.O] 1 < 9 ∧
        ([some Mark.X, none, some Mark.O, none, some Mark.X, some Mark.O,
          some Mark.X, none, some Mark.O] : List Cell).get?
          (getRandomMove [some Mark.X, none, some Mark.O, none, some Mark.X,
            some Mark.O, some Mark.X, none, some Mark.O] 1) = some none) ∧
      (∀ s : Session, currentSquares s =
          [some Mark.X, none, some Mark.O, none, some Mark.X, some Mark.O,
            some Mark.X, none, some Mark.O] →
        ∀ i ∈ botEffectMoves s,
          i < 9 ∧ ([some Mark.X, none, some Mark.O, none, some Mark.X,
            some Mark.O, some Mark.X, none, some Mark.O] : List Cell).get? i =
            some none)) :=
  random_move_selects_empty _ 1 (by decide) (by decide)
